import Mathlib

/-!
Verification development for the `thesis_manta_ray` repository.

The definitions below are a shallow embedding of the Python sources:

* `controller/parameters.py` — `MantaRayControllerSpecificationParameterizer`
  (`parameterize_specification`, `parameter_space`);
* `controller/rule_based.py` — the clipping tail of `RuleBased.select_parameters`;
* `task/move_to_target.py` — `MoveTask.get_reward`;
* `evolution_simulation.py` and
  `experiments/energy_velocity_experiment/evolution_simulation_correct_version.py` —
  `get_best_individual`, `run` / `run_generation` (as an event trace over the
  outer optimizer), the environment-construction retry loop, and the action
  arrays passed to the vectorized environment by `run_episode_parallel`.

Machine floats are modelled as exact rationals; numpy arrays as lists or as
total index maps.
-/

namespace MantaRay

/-- Rational value of the IEEE-754 double `np.pi` (exactly `884279719003555 / 2^48`). -/
def np_pi : ℚ := 884279719003555 / 281474976710656

/-- Modelled from the spec: a parameter family of the CPG controller
specification.  The class `MantaRayCpgControllerSpecification`
(`controller/specification/controller_specification.py`) is not under `src`;
per the spec (§3, Parameter) a family is a sparse set of directed connections,
each carrying declared inclusive bounds `[low, high]` and a current value. -/
structure Param where
  connections : List (Nat × Nat)
  low : List ℚ
  high : List ℚ
  value : List ℚ
deriving DecidableEq

/-- Componentwise clamp of `v` into `[lo, hi]` (numpy-style `min(max(v, lo), hi)`). -/
def clampList : List ℚ → List ℚ → List ℚ → List ℚ
  | lo :: los, hi :: his, x :: xs => min (max x lo) hi :: clampList los his xs
  | _, _, _ => []

/-- Modelled from the spec: assignment to a parameter family's `value`
(the setter of the specification class, not under `src`) clamps each
component into its declared bounds — spec §3: "low <= value <= high after
any update; violations are clamped, never silently ignored". -/
def Param.setValue (p : Param) (v : List ℚ) : Param :=
  { p with value := clampList p.low p.high v }

/-- Appends connections with their initial weights and declared bounds,
mirroring the `add_connections` calls made in `controller/parameters.py`. -/
def Param.add_connections (p : Param) (conns : List (Nat × Nat))
    (weights low high : List ℚ) : Param :=
  { connections := p.connections ++ conns
    low := p.low ++ low
    high := p.high ++ high
    value := p.value ++ weights }

/-- Replaces the connections and weights of a family, mirroring the
`set_connections` call made for the coupling-weight family. -/
def Param.set_connections (p : Param) (conns : List (Nat × Nat))
    (weights : List ℚ) : Param :=
  { p with connections := conns, value := weights }

/-- The aggregate of the parameter families touched by
`controller/parameters.py`: amplitude target `r`, offset `x`, angular
frequency `omega`, coupling `weights` and `phase_biases`. -/
structure MantaRayCpgControllerSpecification where
  r : Param
  x : Param
  omega : Param
  weights : Param
  phase_biases : Param
deriving DecidableEq

/-- Neuron index of the right fin x joint (class attribute `right_fin_x = 4`). -/
def right_fin_x : Nat := 4

/-- Neuron index of the left fin x joint (class attribute `left_fin_x = 6`). -/
def left_fin_x : Nat := 6

/-- Modelled from the spec: `default_controller_dragrace_specification`
(`controller/specification/default.py`, not under `src`) builds the base
specification graph; the base families are taken empty here, so that
`parameterize_specification` appends exactly the fin connections studied by
the claims. -/
def emptySpec : MantaRayCpgControllerSpecification :=
  { r := ⟨[], [], [], []⟩
    x := ⟨[], [], [], []⟩
    omega := ⟨[], [], [], []⟩
    weights := ⟨[], [], [], []⟩
    phase_biases := ⟨[], [], [], []⟩ }

/-- Embeds `MantaRayControllerSpecificationParameterizer.parameterize_specification`
(`controller/parameters.py` lines 38-64): with `omega = 4` and `bias = np.pi`,
adds the fin amplitude and frequency connections, the right-left coupling
weights, and the phase-bias pair carrying mirrored weights `-bias` / `+bias`
with bounds `[-π, π]`. -/
def parameterize_specification (s : MantaRayCpgControllerSpecification) :
    MantaRayCpgControllerSpecification :=
  let omegaCoeff : ℚ := 4
  let bias : ℚ := np_pi
  { s with
    r := s.r.add_connections [(0, right_fin_x), (0, left_fin_x)]
      [1, 1] [0, 0] [1, 1]
    omega := s.omega.add_connections [(0, right_fin_x), (0, left_fin_x)]
      [np_pi * 2 * omegaCoeff, np_pi * 2 * omegaCoeff]
      [0, 0] [2 * np_pi * omegaCoeff, 2 * np_pi * omegaCoeff]
    weights := s.weights.set_connections
      [(right_fin_x, left_fin_x), (left_fin_x, right_fin_x)] [5, 5]
    phase_biases := s.phase_biases.add_connections
      [(right_fin_x, left_fin_x), (left_fin_x, right_fin_x)]
      [-bias, bias] [-np_pi, -np_pi] [np_pi, np_pi] }

/-- Componentwise affine map `low + s * (high - low)` used by
`parameter_space` (`controller/parameters.py` lines 85-88). -/
def affineScale (low high : List ℚ) (s : ℚ) : List ℚ :=
  List.zipWith (fun l h => l + s * (h - l)) low high

/-- Embeds `MantaRayControllerSpecificationParameterizer.parameter_space`
(`controller/parameters.py` lines 67-88).  The assert of line 77 is modelled
by returning `none` when some action component leaves `[0, 1]`; the numpy
scalar reads `controller_action[0..3]` are modelled by `getD` (the intended
action shape has at least 4 components).  On success the `r`, `x`, `omega`
and `phase_biases` families receive the affinely scaled values. -/
def parameter_space (s : MantaRayCpgControllerSpecification)
    (controller_action : List ℚ) :
    Option MantaRayCpgControllerSpecification :=
  if controller_action.all (fun a => decide (0 ≤ a) && decide (a ≤ 1)) then
    let amplitude := controller_action.getD 0 0
    let offset := controller_action.getD 1 0
    let frequency := controller_action.getD 2 0
    let phase_bias := controller_action.getD 3 0
    some { s with
      r := s.r.setValue (affineScale s.r.low s.r.high amplitude)
      x := s.x.setValue (affineScale s.x.low s.x.high offset)
      omega := s.omega.setValue (affineScale s.omega.low s.omega.high frequency)
      phase_biases := s.phase_biases.setValue
        (affineScale s.phase_biases.low s.phase_biases.high phase_bias) }
  else
    none

/-- Predicate: every component of the family's current value lies within its
declared bounds. -/
def Param.withinBounds (p : Param) : Prop :=
  ∀ i, i < p.value.length →
    p.low.getD i 0 ≤ p.value.getD i 0 ∧ p.value.getD i 0 ≤ p.high.getD i 0

/-- Predicate: the family's declared bounds are well formed — `low` and
`high` have the same length and `low` is componentwise at most `high`. -/
def Param.boundsOK (p : Param) : Prop :=
  p.low.length = p.high.length ∧
    ∀ i, i < p.low.length → p.low.getD i 0 ≤ p.high.getD i 0

/-- Relation between a family before and after `parameter_space` scaled it
with the normalized scalar `t`: the new value is the affine image
`low + t * (high - low)`, it lies within the declared bounds, and the
boundary inputs `t = 0` / `t = 1` hit exactly `low` / `high`. -/
def familyScaledOK (before after : Param) (t : ℚ) : Prop :=
  after.value = affineScale before.low before.high t ∧
  after.withinBounds ∧
  (t = 0 → after.value = before.low) ∧
  (t = 1 → after.value = before.high)

/-- Embeds the clipping tail of `RuleBased.select_parameters`
(`controller/rule_based.py` lines 97-103): the parameter vector retrieved
from the archive is clipped into `[0, 1]` whenever some component is out of
range (`np.any(parameters > 1) or np.any(parameters < 0)`), and returned
unchanged otherwise. -/
def select_parameters_post (parameters : List ℚ) : List ℚ :=
  if parameters.any (fun q => decide (1 < q)) || parameters.any (fun q => decide (q < 0)) then
    parameters.map (fun q => min (max q 0) 1)
  else
    parameters

/-- Embeds `MoveTask.get_reward` (`task/move_to_target.py` lines 126-130).
The state is `_previous_distance_to_target`; the result is the pair
(returned reward, new stored distance). -/
def get_reward (previous_distance current_distance : ℚ) : ℚ × ℚ :=
  (previous_distance - current_distance, current_distance)

/-- Rewards along an episode: `d0` is the distance stored by
`initialize_episode` (`task/move_to_target.py` line 154) and `ds` the
successive distances to the target measured at each step; each step's reward
is produced by `get_reward`, threading the stored distance. -/
def episode_rewards (d0 : ℚ) : List ℚ → List ℚ
  | [] => []
  | d :: ds => (get_reward d0 d).1 :: episode_rewards (get_reward d0 d).2 ds

/-- First-occurrence argmin over a list — the semantics of `np.argmin` on
the flattened array: the index of the minimum, ties broken towards the
earliest index. -/
def argminIdx : List ℚ → Nat
  | [] => 0
  | x :: xs => if xs.all (fun y => decide (x ≤ y)) then 0 else argminIdx xs + 1

/-- Row-major (numpy C-order) flattening of the `(G, P)` reward matrix
`self._outer_rewards`, as performed by `np.argmin(..., axis=None)`. -/
def flattenRewards (G P : Nat) (rewards : Nat → Nat → ℚ) : List ℚ :=
  (List.range (G * P)).map (fun k => rewards (k / P) (k % P))

/-- Embeds `OptimizerSimulation.get_best_individual`
(`evolution_simulation.py` lines 194-201 and
`evolution_simulation_correct_version.py` lines 212-219):
`np.unravel_index(np.argmin(self._outer_rewards, axis=None), shape)`,
i.e. the row-major argmin index converted to `(generation, episode)`. -/
def get_best_individual (G P : Nat) (rewards : Nat → Nat → ℚ) : Nat × Nat :=
  let k := argminIdx (flattenRewards G P rewards)
  (k / P, k % P)

/-- Events visible to the outer optimizer: one `ask` per candidate request
and one `tell n` carrying `n` (candidate, fitness) pairs. -/
inductive OptEvent
  | ask : OptEvent
  | tell : Nat → OptEvent
deriving DecidableEq

/-- Python `range(0, stop, step)` for `step > 0`: the agent indices iterated
by `run_generation`'s outer loop. -/
def rangeStep (stop step : Nat) : List Nat :=
  (List.range ((stop + step - 1) / step)).map (fun i => i * step)

/-- Optimizer-event trace of `OptimizerSimulation.run_generation`
(`evolution_simulation.py` lines 168-182): for each agent batch
(`range(0, population_size, num_envs)`) the optimizer is asked `num_envs`
times; after the loop a single `tell` commits the accumulated solutions list,
whose length is `num_envs` per batch. -/
def run_generation_events (pop numEnvs : Nat) : List OptEvent :=
  ((rangeStep pop numEnvs).flatMap (fun _ => List.replicate numEnvs OptEvent.ask)) ++
    [OptEvent.tell ((rangeStep pop numEnvs).length * numEnvs)]

/-- Optimizer-event trace of `OptimizerSimulation.run`
(`evolution_simulation.py` lines 185-192): `run_generation` is executed once
for each `gen in range(num_generations)` and the loop then ends. -/
def run_events (gens pop numEnvs : Nat) : List OptEvent :=
  (List.range gens).flatMap (fun _ => run_generation_events pop numEnvs)

/-- Embeds the environment-construction retry loop of
`OptimizerSimulation.__init__`
(`evolution_simulation_correct_version.py` lines 86-94):
`while not succeed: try ... except: sleep(5)`.  `succeeds k` says whether the
`k`-th construction attempt succeeds; the fuel argument bounds how many loop
iterations are observed, and `none` means the loop is still retrying after
that many iterations. -/
def env_construction_retry (succeeds : Nat → Bool) : Nat → Nat → Option Nat
  | _, 0 => none
  | k, fuel + 1 =>
    if succeeds k then some k else env_construction_retry succeeds (k + 1) fuel

/-- Action array passed to `self._gym_env.step` by the original
`run_episode_parallel` (`evolution_simulation.py` line 162):
`self._actions[generation, episode, :, counter]`, a single 1-D slice of 8
joint values for episode index `episode`.  `actions` is the 4-D recorded
array indexed as `[generation, episode, joint, tick]`. -/
def step_action_orig (actions : Nat → Nat → Nat → Nat → ℚ)
    (generation episode counter : Nat) : List ℚ :=
  (List.range 8).map (fun joint => actions generation episode joint counter)

/-- Action array passed to `self._gym_env.step` by the corrected
`run_episode_parallel` (`evolution_simulation_correct_version.py` line 180):
`self._actions[generation, episode:episode+num_envs, :, counter]`, one row of
8 joint values per concurrently simulated environment. -/
def step_action_correct (actions : Nat → Nat → Nat → Nat → ℚ)
    (numEnvs generation episode counter : Nat) : List (List ℚ) :=
  (List.range numEnvs).map (fun row =>
    (List.range 8).map (fun joint => actions generation (episode + row) joint counter))

/-- Written from the claim's words: the recorded-action rows for episodes
`episode` through `episode + num_envs - 1` at tick `counter`, one row per
concurrently simulated environment. -/
def claimed_step_rows (actions : Nat → Nat → Nat → Nat → ℚ)
    (numEnvs generation episode counter : Nat) : List (List ℚ) :=
  (List.range numEnvs).map (fun env =>
    (List.range 8).map (fun joint => actions generation (episode + env) joint counter))

lemma clampList_length (lo hi v : List ℚ) :
    (clampList lo hi v).length = min lo.length (min hi.length v.length) := by
  induction lo generalizing hi v with
  | nil => cases hi <;> cases v <;> simp [clampList]
  | cons l los ih =>
    cases hi with
    | nil => cases v <;> simp [clampList]
    | cons h his =>
      cases v with
      | nil => simp [clampList]
      | cons x xs =>
        simp only [clampList, List.length_cons, ih]
        omega

lemma clampList_getD (lo hi v : List ℚ) (i : Nat)
    (hik : i < (clampList lo hi v).length) :
    (clampList lo hi v).getD i 0 =
      min (max (v.getD i 0) (lo.getD i 0)) (hi.getD i 0) := by
  induction lo generalizing hi v i with
  | nil => cases hi <;> cases v <;> simp [clampList] at hik
  | cons l los ih =>
    cases hi with
    | nil => cases v <;> simp [clampList] at hik
    | cons h his =>
      cases v with
      | nil => simp [clampList] at hik
      | cons x xs =>
        cases i with
        | zero => simp [clampList]
        | succ n =>
          simp only [clampList, List.getD_cons_succ]
          apply ih
          simp only [clampList, List.length_cons] at hik
          omega

lemma clampList_eq_self (lo hi v : List ℚ) (hlen1 : lo.length = hi.length)
    (hlen2 : hi.length = v.length)
    (hin : ∀ i, i < v.length → lo.getD i 0 ≤ v.getD i 0 ∧ v.getD i 0 ≤ hi.getD i 0) :
    clampList lo hi v = v := by
  induction lo generalizing hi v with
  | nil => cases hi <;> cases v <;> simp_all [clampList]
  | cons l los ih =>
    cases hi with
    | nil => simp at hlen1
    | cons h his =>
      cases v with
      | nil => simp at hlen2
      | cons x xs =>
        have h0 := hin 0 (by simp)
        simp only [List.getD_cons_zero] at h0
        simp only [clampList, List.cons.injEq]
        refine ⟨by rw [max_eq_left h0.1, min_eq_left h0.2], ?_⟩
        apply ih his xs (by simpa using hlen1) (by simpa using hlen2)
        intro i hi2
        have := hin (i + 1) (by simpa using Nat.succ_lt_succ hi2)
        simpa using this

lemma affineScale_length (lo hi : List ℚ) (s : ℚ) :
    (affineScale lo hi s).length = min lo.length hi.length := by
  simp [affineScale]

lemma affineScale_getD (lo hi : List ℚ) (s : ℚ) (i : Nat)
    (hik : i < (affineScale lo hi s).length) :
    (affineScale lo hi s).getD i 0 =
      lo.getD i 0 + s * (hi.getD i 0 - lo.getD i 0) := by
  induction lo generalizing hi i with
  | nil => simp [affineScale] at hik
  | cons l los ih =>
    cases hi with
    | nil => simp [affineScale] at hik
    | cons h his =>
      cases i with
      | zero => simp [affineScale]
      | succ n =>
        simp only [affineScale, List.zipWith_cons_cons, List.getD_cons_succ]
        apply ih
        simp only [affineScale, List.zipWith_cons_cons, List.length_cons] at hik
        simpa [affineScale] using Nat.lt_of_succ_lt_succ hik

lemma affineScale_zero (lo hi : List ℚ) (hlen : lo.length = hi.length) :
    affineScale lo hi 0 = lo := by
  induction lo generalizing hi with
  | nil => rfl
  | cons l los ih =>
    cases hi with
    | nil => simp at hlen
    | cons h his =>
      have ht := ih his (by simpa using hlen)
      show (l + 0 * (h - l)) :: affineScale los his 0 = l :: los
      rw [ht]
      norm_num

lemma affineScale_one (lo hi : List ℚ) (hlen : lo.length = hi.length) :
    affineScale lo hi 1 = hi := by
  induction lo generalizing hi with
  | nil =>
    cases hi with
    | nil => rfl
    | cons h his => simp at hlen
  | cons l los ih =>
    cases hi with
    | nil => simp at hlen
    | cons h his =>
      simp only [affineScale, List.zipWith_cons_cons, List.cons.injEq]
      exact ⟨by ring, ih his (by simpa using hlen)⟩

lemma getD_mem_of_lt (l : List ℚ) (i : Nat) (h : i < l.length) : l.getD i 0 ∈ l := by
  induction l generalizing i with
  | nil => simp at h
  | cons x xs ih =>
    cases i with
    | zero => simp
    | succ n =>
      simp only [List.getD_cons_succ]
      exact List.mem_cons_of_mem _ (ih n (by simpa using h))

lemma mem_getD (l : List ℚ) (q : ℚ) (h : q ∈ l) :
    ∃ i, i < l.length ∧ l.getD i 0 = q := by
  induction l with
  | nil => simp at h
  | cons x xs ih =>
    rcases List.mem_cons.mp h with rfl | hx
    · exact ⟨0, by simp, by simp⟩
    · rcases ih hx with ⟨i, hi, he⟩
      exact ⟨i + 1, by simpa using hi, by simpa using he⟩

lemma getD_in_range (a : List ℚ) (hin : ∀ q ∈ a, 0 ≤ q ∧ q ≤ 1) (k : Nat) :
    0 ≤ a.getD k 0 ∧ a.getD k 0 ≤ 1 := by
  by_cases h : k < a.length
  · exact hin _ (getD_mem_of_lt a k h)
  · rw [List.getD_eq_default _ _ (by omega)]
    norm_num

lemma setValue_withinBounds (p : Param) (v : List ℚ) (hok : p.boundsOK) :
    (p.setValue v).withinBounds := by
  intro i hi
  have hi' : i < (clampList p.low p.high v).length := hi
  have hlen := clampList_length p.low p.high v
  have hl : i < p.low.length := by omega
  have hlohi := hok.2 i hl
  show p.low.getD i 0 ≤ (clampList p.low p.high v).getD i 0 ∧
    (clampList p.low p.high v).getD i 0 ≤ p.high.getD i 0
  rw [clampList_getD _ _ _ _ hi']
  exact ⟨le_min (le_max_right _ _) hlohi, min_le_right _ _⟩

lemma setValue_affine_zero (p : Param) (hok : p.boundsOK) :
    (p.setValue (affineScale p.low p.high 0)).value = p.low := by
  show clampList p.low p.high (affineScale p.low p.high 0) = p.low
  rw [affineScale_zero p.low p.high hok.1]
  apply clampList_eq_self _ _ _ hok.1 hok.1.symm
  intro i hi3
  exact ⟨le_refl _, hok.2 i hi3⟩

lemma setValue_affine_one (p : Param) (hok : p.boundsOK) :
    (p.setValue (affineScale p.low p.high 1)).value = p.high := by
  show clampList p.low p.high (affineScale p.low p.high 1) = p.high
  rw [affineScale_one p.low p.high hok.1]
  apply clampList_eq_self _ _ _ hok.1 rfl
  intro i hi3
  exact ⟨hok.2 i (hok.1 ▸ hi3), le_refl _⟩

lemma boundsOK_nil (c : List (Nat × Nat)) (v : List ℚ) :
    Param.boundsOK ⟨c, [], [], v⟩ := by
  refine ⟨rfl, ?_⟩
  intro i hi
  simp at hi

lemma boundsOK_one (c : List (Nat × Nat)) (l1 h1 : ℚ) (v : List ℚ)
    (e1 : l1 ≤ h1) : Param.boundsOK ⟨c, [l1], [h1], v⟩ := by
  refine ⟨rfl, ?_⟩
  intro i hi
  simp only [List.length_cons, List.length_nil] at hi
  interval_cases i
  simpa [List.getD] using e1

lemma boundsOK_two (c : List (Nat × Nat)) (l1 l2 h1 h2 : ℚ) (v : List ℚ)
    (e1 : l1 ≤ h1) (e2 : l2 ≤ h2) :
    Param.boundsOK ⟨c, [l1, l2], [h1, h2], v⟩ := by
  refine ⟨rfl, ?_⟩
  intro i hi
  simp only [List.length_cons, List.length_nil] at hi
  interval_cases i
  · simpa [List.getD] using e1
  · simpa [List.getD] using e2

lemma r_boundsOK : (parameterize_specification emptySpec).r.boundsOK := by
  show Param.boundsOK ⟨_, [0, 0], [1, 1], _⟩
  exact boundsOK_two _ _ _ _ _ _ (by norm_num) (by norm_num)

lemma x_boundsOK : (parameterize_specification emptySpec).x.boundsOK := by
  show Param.boundsOK ⟨_, [], [], _⟩
  exact boundsOK_nil _ _

lemma omega_boundsOK : (parameterize_specification emptySpec).omega.boundsOK := by
  show Param.boundsOK ⟨_, [0, 0], [2 * np_pi * 4, 2 * np_pi * 4], _⟩
  exact boundsOK_two _ _ _ _ _ _ (by norm_num [np_pi]) (by norm_num [np_pi])

lemma phase_biases_boundsOK :
    (parameterize_specification emptySpec).phase_biases.boundsOK := by
  show Param.boundsOK ⟨_, [-np_pi, -np_pi], [np_pi, np_pi], _⟩
  exact boundsOK_two _ _ _ _ _ _ (by norm_num [np_pi]) (by norm_num [np_pi])

lemma parameter_space_some (s : MantaRayCpgControllerSpecification) (a : List ℚ)
    (hin : ∀ q ∈ a, 0 ≤ q ∧ q ≤ 1) :
    parameter_space s a = some { s with
      r := s.r.setValue (affineScale s.r.low s.r.high (a.getD 0 0))
      x := s.x.setValue (affineScale s.x.low s.x.high (a.getD 1 0))
      omega := s.omega.setValue (affineScale s.omega.low s.omega.high (a.getD 2 0))
      phase_biases := s.phase_biases.setValue
        (affineScale s.phase_biases.low s.phase_biases.high (a.getD 3 0)) } := by
  have hc : a.all (fun q => decide (0 ≤ q) && decide (q ≤ 1)) = true := by
    simp only [List.all_eq_true, Bool.and_eq_true, decide_eq_true_eq]
    exact fun q hq => ⟨(hin q hq).1, (hin q hq).2⟩
  simp [parameter_space, hc]

lemma parameter_space_none (s : MantaRayCpgControllerSpecification) (a : List ℚ)
    (h : ¬ ∀ q ∈ a, 0 ≤ q ∧ q ≤ 1) :
    parameter_space s a = none := by
  have hc : ¬ (a.all (fun q => decide (0 ≤ q) && decide (q ≤ 1)) = true) := by
    intro hc
    exact h (by simpa [List.all_eq_true, Bool.and_eq_true, decide_eq_true_eq] using hc)
  simp only [parameter_space, if_neg hc]

lemma setValue_affine_ok (p : Param) (t : ℚ) (hok : p.boundsOK)
    (h0 : 0 ≤ t) (h1 : t ≤ 1) :
    familyScaledOK p (p.setValue (affineScale p.low p.high t)) t := by
  have hll := hok.1
  refine ⟨?_, setValue_withinBounds p _ hok, ?_, ?_⟩
  · show clampList p.low p.high (affineScale p.low p.high t) = affineScale p.low p.high t
    apply clampList_eq_self
    · exact hok.1
    · rw [affineScale_length]
      omega
    · intro i hi2
      rw [affineScale_length] at hi2
      have hilo : i < p.low.length := by omega
      have hiaf : i < (affineScale p.low p.high t).length := by
        rw [affineScale_length]
        omega
      rw [affineScale_getD _ _ _ _ hiaf]
      have hlh := hok.2 i hilo
      constructor
      · nlinarith [mul_nonneg h0 (sub_nonneg.mpr hlh)]
      · nlinarith [mul_nonneg (sub_nonneg.mpr h1) (sub_nonneg.mpr hlh)]
  · rintro rfl
    exact setValue_affine_zero p hok
  · rintro rfl
    exact setValue_affine_one p hok

/-- C1: for every controller_action with all components in `[0, 1]`,
`parameter_space` sets each targeted family's value by the affine map
`value = low + a_i * (high - low)`; every updated value lies within the
declared `[low, high]` bounds, with `a_i = 0` yielding exactly `low` and
`a_i = 1` yielding exactly `high`. -/
theorem parameter_space_bounds
    (s : MantaRayCpgControllerSpecification) (a : List ℚ)
    (hr : s.r.boundsOK) (hx : s.x.boundsOK) (ho : s.omega.boundsOK)
    (hp : s.phase_biases.boundsOK)
    (hin : ∀ q ∈ a, 0 ≤ q ∧ q ≤ 1) :
    ∃ s', parameter_space s a = some s' ∧
      familyScaledOK s.r s'.r (a.getD 0 0) ∧
      familyScaledOK s.x s'.x (a.getD 1 0) ∧
      familyScaledOK s.omega s'.omega (a.getD 2 0) ∧
      familyScaledOK s.phase_biases s'.phase_biases (a.getD 3 0) := by
  refine ⟨_, parameter_space_some s a hin, ?_, ?_, ?_, ?_⟩
  · exact setValue_affine_ok _ _ hr (getD_in_range a hin 0).1 (getD_in_range a hin 0).2
  · exact setValue_affine_ok _ _ hx (getD_in_range a hin 1).1 (getD_in_range a hin 1).2
  · exact setValue_affine_ok _ _ ho (getD_in_range a hin 2).1 (getD_in_range a hin 2).2
  · exact setValue_affine_ok _ _ hp (getD_in_range a hin 3).1 (getD_in_range a hin 3).2

/-- Witness for C1 at the concrete specification built by
`parameterize_specification` and the boundary action `[1, 0, 1, 0]`. -/
theorem parameter_space_bounds_witness :
    (∀ q ∈ ([1, 0, 1, 0] : List ℚ), 0 ≤ q ∧ q ≤ 1) ∧
      (∃ s', parameter_space (parameterize_specification emptySpec)
          [1, 0, 1, 0] = some s' ∧
        familyScaledOK (parameterize_specification emptySpec).r s'.r
          (([1, 0, 1, 0] : List ℚ).getD 0 0) ∧
        familyScaledOK (parameterize_specification emptySpec).x s'.x
          (([1, 0, 1, 0] : List ℚ).getD 1 0) ∧
        familyScaledOK (parameterize_specification emptySpec).omega s'.omega
          (([1, 0, 1, 0] : List ℚ).getD 2 0) ∧
        familyScaledOK (parameterize_specification emptySpec).phase_biases
          s'.phase_biases (([1, 0, 1, 0] : List ℚ).getD 3 0)) :=
  ⟨by norm_num,
    parameter_space_bounds (parameterize_specification emptySpec) [1, 0, 1, 0]
      r_boundsOK x_boundsOK omega_boundsOK phase_biases_boundsOK (by norm_num)⟩

/-- C2: `parameter_space` fails (the assert of line 77 fires) exactly when
some component of the controller_action lies outside `[0, 1]`; it never
clamps such an input, and every all-in-range action passes the check and the
update proceeds. -/
theorem parameter_space_assert (s : MantaRayCpgControllerSpecification)
    (a : List ℚ) :
    (parameter_space s a = none ↔ ∃ q ∈ a, q < 0 ∨ 1 < q) ∧
      ((∀ q ∈ a, 0 ≤ q ∧ q ≤ 1) → ∃ s', parameter_space s a = some s') := by
  constructor
  · constructor
    · intro h
      by_contra hno
      push_neg at hno
      rw [parameter_space_some s a hno] at h
      simp at h
    · intro hex
      apply parameter_space_none
      intro hall
      rcases hex with ⟨q, hq, hor⟩
      rcases hall q hq with ⟨h0, h1⟩
      rcases hor with h | h <;> linarith
  · intro hin
    exact ⟨_, parameter_space_some s a hin⟩

/-- Witness for C2 at a concrete out-of-range action. -/
theorem parameter_space_assert_witness :
    (parameter_space (parameterize_specification emptySpec) [2, 0, 0, 0] = none ↔
        ∃ q ∈ ([2, 0, 0, 0] : List ℚ), q < 0 ∨ 1 < q) ∧
      ((∀ q ∈ ([2, 0, 0, 0] : List ℚ), 0 ≤ q ∧ q ≤ 1) →
        ∃ s', parameter_space (parameterize_specification emptySpec)
          [2, 0, 0, 0] = some s') :=
  parameter_space_assert (parameterize_specification emptySpec) [2, 0, 0, 0]

/-- C7: after any update to a parameter family with well-formed bounds the
invariant `low <= value <= high` holds, and the update is clamped into the
bounds rather than ignored: an in-range component is stored unchanged, a
too-small component is stored as `low`, a too-large one as `high`. -/
theorem setValue_clamps (p : Param) (v : List ℚ) (hok : p.boundsOK) :
    (p.setValue v).withinBounds ∧
      ∀ i, i < (p.setValue v).value.length →
        ((p.low.getD i 0 ≤ v.getD i 0 ∧ v.getD i 0 ≤ p.high.getD i 0) →
          (p.setValue v).value.getD i 0 = v.getD i 0) ∧
        (v.getD i 0 < p.low.getD i 0 →
          (p.setValue v).value.getD i 0 = p.low.getD i 0) ∧
        (p.high.getD i 0 < v.getD i 0 →
          (p.setValue v).value.getD i 0 = p.high.getD i 0) := by
  refine ⟨setValue_withinBounds p v hok, ?_⟩
  intro i hi
  have hi' : i < (clampList p.low p.high v).length := hi
  have hlen := clampList_length p.low p.high v
  have hl : i < p.low.length := by omega
  have hlohi := hok.2 i hl
  rw [show (p.setValue v).value = clampList p.low p.high v from rfl,
    clampList_getD _ _ _ _ hi']
  refine ⟨?_, ?_, ?_⟩
  · rintro ⟨h1, h2⟩
    rw [max_eq_left h1, min_eq_left h2]
  · intro h
    rw [max_eq_right (le_of_lt h), min_eq_left hlohi]
  · intro h
    rw [max_eq_left (le_of_lt (lt_of_le_of_lt hlohi h)), min_eq_right (le_of_lt h)]

/-- Witness for C7 at a concrete family and a value above the upper bound. -/
theorem setValue_clamps_witness :
    (Param.boundsOK ⟨[], [0], [2], [1]⟩) ∧
      ((Param.setValue ⟨[], [0], [2], [1]⟩ [5]).withinBounds ∧
        ∀ i, i < (Param.setValue ⟨[], [0], [2], [1]⟩ [5]).value.length →
          (((⟨[], [0], [2], [1]⟩ : Param).low.getD i 0 ≤ ([5] : List ℚ).getD i 0 ∧
              ([5] : List ℚ).getD i 0 ≤ (⟨[], [0], [2], [1]⟩ : Param).high.getD i 0) →
            (Param.setValue ⟨[], [0], [2], [1]⟩ [5]).value.getD i 0 =
              ([5] : List ℚ).getD i 0) ∧
          (([5] : List ℚ).getD i 0 < (⟨[], [0], [2], [1]⟩ : Param).low.getD i 0 →
            (Param.setValue ⟨[], [0], [2], [1]⟩ [5]).value.getD i 0 =
              (⟨[], [0], [2], [1]⟩ : Param).low.getD i 0) ∧
          ((⟨[], [0], [2], [1]⟩ : Param).high.getD i 0 < ([5] : List ℚ).getD i 0 →
            (Param.setValue ⟨[], [0], [2], [1]⟩ [5]).value.getD i 0 =
              (⟨[], [0], [2], [1]⟩ : Param).high.getD i 0)) :=
  ⟨boundsOK_one [] 0 2 [1] (by norm_num),
    setValue_clamps ⟨[], [0], [2], [1]⟩ [5] (boundsOK_one [] 0 2 [1] (by norm_num))⟩

/-- C3 counterexample: after the update `parameter_space` performs with the
in-range action `[0, 0, 0, 0]` (which stores `-π` in the canonical phase
bias), the mirrored phase bias does not read as the negation of the
canonical one — both members receive the same value, refuting the claim
that the two phase biases remain negations of each other after any update. -/
theorem phase_bias_mirror_counterexample :
    ¬ (((parameter_space (parameterize_specification emptySpec) [0, 0, 0, 0]).map
          (fun s => s.phase_biases.value.getD 1 0)).getD 0 =
        -(((parameter_space (parameterize_specification emptySpec) [0, 0, 0, 0]).map
          (fun s => s.phase_biases.value.getD 0 0)).getD 0)) := by
  have hin : ∀ q ∈ ([0, 0, 0, 0] : List ℚ), 0 ≤ q ∧ q ≤ 1 := by norm_num
  rw [parameter_space_some _ _ hin]
  simp only [Option.map_some', Option.getD_some]
  show ¬ ((clampList _ _ _).getD 1 0 = -((clampList _ _ _).getD 0 0))
  norm_num [parameterize_specification, emptySpec, Param.add_connections,
    affineScale, clampList, List.getD, np_pi, min_def, max_def]

/-- C3 (amended): the construction is mirrored — `parameterize_specification`
adds the phase-bias pair with weights `-bias` and `+bias`, negations of each
other — but `parameter_space` assigns both members of the pair the same
scalar-scaled value `low + a_3 * (high - low)` (both connections carry the
bounds `[-π, π]`), so after any successful update the two phase biases are
equal, not negations of each other. -/
theorem phase_bias_mirror_amended :
    (parameterize_specification emptySpec).phase_biases.value = [-np_pi, np_pi] ∧
      ∀ (a : List ℚ) (s' : MantaRayCpgControllerSpecification),
        parameter_space (parameterize_specification emptySpec) a = some s' →
          s'.phase_biases.value.getD 0 0 = s'.phase_biases.value.getD 1 0 := by
  constructor
  · rfl
  · intro a s' h
    by_cases hin : ∀ q ∈ a, 0 ≤ q ∧ q ≤ 1
    · rw [parameter_space_some _ _ hin] at h
      obtain rfl := Option.some.inj h
      rfl
    · rw [parameter_space_none _ _ hin] at h
      simp at h

/-- Witness for C3's amended theorem at the concrete action `[0, 0, 0, 0]`. -/
theorem phase_bias_mirror_amended_witness :
    parameter_space (parameterize_specification emptySpec) [0, 0, 0, 0] =
        some ((parameter_space (parameterize_specification emptySpec)
          [0, 0, 0, 0]).getD emptySpec) ∧
      ((parameter_space (parameterize_specification emptySpec)
          [0, 0, 0, 0]).getD emptySpec).phase_biases.value.getD 0 0 =
        ((parameter_space (parameterize_specification emptySpec)
          [0, 0, 0, 0]).getD emptySpec).phase_biases.value.getD 1 0 :=
  ⟨by
    rw [parameter_space_some _ _ (by norm_num : ∀ q ∈ ([0, 0, 0, 0] : List ℚ),
      0 ≤ q ∧ q ≤ 1)]
    rfl,
    phase_bias_mirror_amended.2 [0, 0, 0, 0] _ (by
      rw [parameter_space_some _ _ (by norm_num : ∀ q ∈ ([0, 0, 0, 0] : List ℚ),
        0 ≤ q ∧ q ≤ 1)]
      rfl)⟩

/-- C9: `RuleBased.select_parameters` always returns a parameter vector with
every component in `[0, 1]`: when the archive solution has out-of-range
components the vector is clipped to `[0, 1]` before being returned, and
otherwise it is returned unchanged with all components already in range —
so the result always satisfies the `[0, 1]` precondition of
`parameter_space`. -/
theorem select_parameters_in_range (parameters : List ℚ) (q : ℚ)
    (hq : q ∈ select_parameters_post parameters) : 0 ≤ q ∧ q ≤ 1 := by
  unfold select_parameters_post at hq
  by_cases hc : (parameters.any (fun q => decide (1 < q)) ||
      parameters.any (fun q => decide (q < 0))) = true
  · rw [if_pos hc] at hq
    rcases List.mem_map.mp hq with ⟨x, _, rfl⟩
    exact ⟨le_min (le_max_right x 0) zero_le_one, min_le_right _ _⟩
  · rw [if_neg hc] at hq
    simp only [Bool.or_eq_true, List.any_eq_true, decide_eq_true_eq, not_or,
      not_exists] at hc
    push_neg at hc
    exact ⟨hc.2 q hq, hc.1 q hq⟩

/-- Witness for C9: the archive solution `[2]` is out of range and is
clipped, so the returned component `1` lies in `[0, 1]`. -/
theorem select_parameters_in_range_witness :
    (1 : ℚ) ∈ select_parameters_post [2] ∧ (0 ≤ (1 : ℚ) ∧ (1 : ℚ) ≤ 1) :=
  ⟨by norm_num [select_parameters_post, min_def, max_def],
    select_parameters_in_range [2] 1
      (by norm_num [select_parameters_post, min_def, max_def])⟩

/-- C10: `MoveTask.get_reward` returns the stored distance minus the current
distance and stores the current one; a step's reward is positive exactly
when the morphology moved closer to the target, and over any episode that
starts with `initialize_episode` storing `d0` the rewards telescope to
`d0` minus the final distance. -/
theorem get_reward_telescopes (d0 prev cur : ℚ) (ds : List ℚ) :
    (episode_rewards d0 ds).sum = d0 - ds.getLastD d0 ∧
      (0 < (get_reward prev cur).1 ↔ cur < prev) := by
  constructor
  · induction ds generalizing d0 with
    | nil => simp [episode_rewards]
    | cons d ds ih =>
      simp only [episode_rewards, get_reward, List.sum_cons, List.getLastD_cons, ih]
      ring
  · simp [get_reward, sub_pos]

lemma exists_lt_of_not_all (x : ℚ) (xs : List ℚ)
    (hall : ¬ xs.all (fun y => decide (x ≤ y)) = true) : ∃ y ∈ xs, y < x := by
  simp only [List.all_eq_true, decide_eq_true_eq] at hall
  push_neg at hall
  exact hall

lemma argminIdx_lt_length (l : List ℚ) (h : l ≠ []) : argminIdx l < l.length := by
  induction l with
  | nil => exact absurd rfl h
  | cons x xs ih =>
    by_cases hall : xs.all (fun y => decide (x ≤ y)) = true
    · simp [argminIdx, hall]
    · rcases exists_lt_of_not_all x xs hall with ⟨y, hy, _⟩
      have hne : xs ≠ [] := by
        intro he
        subst he
        simp at hy
      simp only [argminIdx, if_neg hall, List.length_cons]
      have := ih hne
      omega

lemma argminIdx_le (l : List ℚ) (j : Nat) (hj : j < l.length) :
    l.getD (argminIdx l) 0 ≤ l.getD j 0 := by
  induction l generalizing j with
  | nil => simp at hj
  | cons x xs ih =>
    by_cases hall : xs.all (fun y => decide (x ≤ y)) = true
    · simp only [argminIdx, if_pos hall, List.getD_cons_zero]
      simp only [List.all_eq_true, decide_eq_true_eq] at hall
      cases j with
      | zero => simp
      | succ n =>
        simp only [List.getD_cons_succ]
        exact hall _ (getD_mem_of_lt xs n (by simpa using hj))
    · simp only [argminIdx, if_neg hall, List.getD_cons_succ]
      rcases exists_lt_of_not_all x xs hall with ⟨y, hy, hyx⟩
      cases j with
      | zero =>
        simp only [List.getD_cons_zero]
        rcases mem_getD xs y hy with ⟨iy, hiy, he⟩
        calc xs.getD (argminIdx xs) 0 ≤ xs.getD iy 0 := ih iy hiy
          _ = y := he
          _ ≤ x := le_of_lt hyx
      | succ n =>
        simp only [List.getD_cons_succ]
        exact ih n (by simpa using hj)

lemma argminIdx_first (l : List ℚ) (j : Nat) (hj : j < argminIdx l) :
    l.getD (argminIdx l) 0 < l.getD j 0 := by
  induction l generalizing j with
  | nil => simp [argminIdx] at hj
  | cons x xs ih =>
    by_cases hall : xs.all (fun y => decide (x ≤ y)) = true
    · simp only [argminIdx, if_pos hall] at hj
      exact absurd hj (by simp)
    · simp only [argminIdx, if_neg hall] at hj
      simp only [argminIdx, if_neg hall, List.getD_cons_succ]
      rcases exists_lt_of_not_all x xs hall with ⟨y, hy, hyx⟩
      cases j with
      | zero =>
        simp only [List.getD_cons_zero]
        rcases mem_getD xs y hy with ⟨iy, hiy, he⟩
        calc xs.getD (argminIdx xs) 0 ≤ xs.getD iy 0 := argminIdx_le xs iy hiy
          _ = y := he
          _ < x := hyx
      | succ n =>
        simp only [List.getD_cons_succ]
        exact ih n (by omega)

lemma flattenRewards_length (G P : Nat) (r : Nat → Nat → ℚ) :
    (flattenRewards G P r).length = G * P := by
  simp [flattenRewards]

lemma flattenRewards_getD (G P : Nat) (r : Nat → Nat → ℚ) (k : Nat)
    (hk : k < G * P) :
    (flattenRewards G P r).getD k 0 = r (k / P) (k % P) := by
  unfold flattenRewards
  rw [List.getD_eq_getElem _ _ (by simpa using hk)]
  simp

lemma rowMajor_div (g p P : Nat) (hp : p < P) : (g * P + p) / P = g := by
  have hP : 0 < P := lt_of_le_of_lt (Nat.zero_le p) hp
  have h : g * P + p = p + g * P := by ring
  rw [h, Nat.add_mul_div_right _ _ hP, Nat.div_eq_of_lt hp, Nat.zero_add]

lemma rowMajor_mod (g p P : Nat) (hp : p < P) : (g * P + p) % P = p := by
  have h : g * P + p = p + g * P := by ring
  rw [h, Nat.add_mul_mod_self_right, Nat.mod_eq_of_lt hp]

lemma rowMajor_lt (g p G P : Nat) (hg : g < G) (hp : p < P) :
    g * P + p < G * P := by
  calc g * P + p < g * P + P := by omega
    _ = (g + 1) * P := by ring
    _ ≤ G * P := mul_le_mul_right' (by omega) P

lemma flatMap_const_replicate {α β : Type} (l : List α) (n : Nat) (x : β) :
    l.flatMap (fun _ => List.replicate n x) = List.replicate (l.length * n) x := by
  induction l with
  | nil => simp
  | cons a as ih =>
    simp only [List.flatMap_cons, ih, List.length_cons]
    rw [← List.replicate_add]
    congr 1
    ring

lemma rangeStep_length (pop n : Nat) (hn : 0 < n) (hd : n ∣ pop) :
    (rangeStep pop n).length = pop / n := by
  unfold rangeStep
  simp only [List.length_map, List.length_range]
  obtain ⟨m, rfl⟩ := hd
  rw [Nat.add_sub_assoc hn, Nat.add_comm, Nat.mul_comm n m,
    Nat.add_mul_div_right _ _ hn, Nat.div_eq_of_lt (by omega), Nat.zero_add]
  rw [Nat.mul_comm m n, Nat.mul_div_cancel_left m hn]

/-- C4: `get_best_individual` is a pure query over the reward matrix of
shape `(num_generations, population_size)`: it returns indices inside the
matrix at which the minimum reward is attained, and every position that is
strictly earlier in row-major scan order holds a strictly larger reward —
so when the minimum is attained at several positions, the first row-major
occurrence is returned. -/
theorem get_best_individual_spec (G P : Nat) (rewards : Nat → Nat → ℚ)
    (hG : 0 < G) (hP : 0 < P) :
    (get_best_individual G P rewards).1 < G ∧
      (get_best_individual G P rewards).2 < P ∧
      (∀ g p, g < G → p < P →
        rewards (get_best_individual G P rewards).1
          (get_best_individual G P rewards).2 ≤ rewards g p) ∧
      (∀ g p, g < G → p < P →
        g * P + p < (get_best_individual G P rewards).1 * P +
          (get_best_individual G P rewards).2 →
        rewards (get_best_individual G P rewards).1
          (get_best_individual G P rewards).2 < rewards g p) := by
  have hlen : (flattenRewards G P rewards).length = G * P :=
    flattenRewards_length G P rewards
  have hne : flattenRewards G P rewards ≠ [] := by
    intro h
    rw [h] at hlen
    have := Nat.mul_pos hG hP
    simp at hlen
    omega
  have hkl : argminIdx (flattenRewards G P rewards) < G * P := by
    rw [← hlen]
    exact argminIdx_lt_length _ hne
  have hdiv : (get_best_individual G P rewards).1 =
      argminIdx (flattenRewards G P rewards) / P := rfl
  have hmod : (get_best_individual G P rewards).2 =
      argminIdx (flattenRewards G P rewards) % P := rfl
  refine ⟨?_, ?_, ?_, ?_⟩
  · rw [hdiv]
    exact (Nat.div_lt_iff_lt_mul hP).mpr hkl
  · rw [hmod]
    exact Nat.mod_lt _ hP
  · intro g p hg hp
    have hidx : g * P + p < G * P := rowMajor_lt g p G P hg hp
    have hle := argminIdx_le (flattenRewards G P rewards) (g * P + p)
      (by rw [hlen]; exact hidx)
    rw [flattenRewards_getD _ _ _ _ hkl, flattenRewards_getD _ _ _ _ hidx,
      rowMajor_div g p P hp, rowMajor_mod g p P hp] at hle
    rw [hdiv, hmod]
    exact hle
  · intro g p hg hp hlt
    have hidx : g * P + p < G * P := rowMajor_lt g p G P hg hp
    rw [hdiv, hmod, Nat.div_add_mod'] at hlt
    have hfirst := argminIdx_first (flattenRewards G P rewards) (g * P + p) hlt
    rw [flattenRewards_getD _ _ _ _ hkl, flattenRewards_getD _ _ _ _ hidx,
      rowMajor_div g p P hp, rowMajor_mod g p P hp] at hfirst
    rw [hdiv, hmod]
    exact hfirst

/-- Witness for C4 at a concrete 2×2 reward matrix. -/
theorem get_best_individual_spec_witness :
    0 < 2 ∧ 0 < 2 ∧
      ((get_best_individual 2 2 (fun g p => (g : ℚ) + p)).1 < 2 ∧
        (get_best_individual 2 2 (fun g p => (g : ℚ) + p)).2 < 2 ∧
        (∀ g p : Nat, g < 2 → p < 2 →
          ((get_best_individual 2 2 (fun g p => (g : ℚ) + p)).1 : ℚ) +
            ((get_best_individual 2 2 (fun g p => (g : ℚ) + p)).2 : ℚ) ≤
            (g : ℚ) + p) ∧
        (∀ g p : Nat, g < 2 → p < 2 →
          g * 2 + p < (get_best_individual 2 2 (fun g p => (g : ℚ) + p)).1 * 2 +
            (get_best_individual 2 2 (fun g p => (g : ℚ) + p)).2 →
          ((get_best_individual 2 2 (fun g p => (g : ℚ) + p)).1 : ℚ) +
            ((get_best_individual 2 2 (fun g p => (g : ℚ) + p)).2 : ℚ) <
            (g : ℚ) + p)) :=
  ⟨by decide, by decide,
    get_best_individual_spec 2 2 (fun g p => (g : ℚ) + p) (by decide) (by decide)⟩

/-- C5: the optimizer-event trace of `run` is exactly `num_generations`
repetitions of (`population_size` asks followed by a single tell carrying
all `population_size` pairs): the loop runs a fixed generation count with no
convergence stopping, and each generation's single `tell` happens after all
of its asks and before any ask of the next generation. -/
theorem run_tell_per_generation (gens pop n : Nat) (hn : 0 < n)
    (hd : n ∣ pop) :
    run_events gens pop n =
      (List.range gens).flatMap
        (fun _ => List.replicate pop OptEvent.ask ++ [OptEvent.tell pop]) := by
  unfold run_events
  congr 1
  funext _
  unfold run_generation_events
  rw [flatMap_const_replicate, rangeStep_length pop n hn hd,
    Nat.div_mul_cancel hd]

/-- Witness for C5 with 2 generations, population 4 and 2 environments. -/
theorem run_tell_per_generation_witness :
    0 < 2 ∧ (2 ∣ 4) ∧
      run_events 2 4 2 =
        (List.range 2).flatMap
          (fun _ => List.replicate 4 OptEvent.ask ++ [OptEvent.tell 4]) :=
  ⟨by decide, by decide, run_tell_per_generation 2 4 2 (by decide) (by decide)⟩

/-- C6 (the code evaluated at the failing input): when every
environment-construction attempt fails, the retry loop of
`OptimizerSimulation.__init__` is still running after any number of
iterations — there is no bound after which the failure escalates — and the
only way the loop ever exits is a successful attempt. -/
theorem env_construction_retry_unbounded :
    (∀ fuel start,
        env_construction_retry (fun _ => false) start fuel = none) ∧
      (∀ (succeeds : Nat → Bool) start fuel k,
        env_construction_retry succeeds start fuel = some k →
          succeeds k = true) := by
  constructor
  · intro fuel
    induction fuel with
    | zero => intro start; rfl
    | succ f ih =>
      intro start
      simp only [env_construction_retry, Bool.false_eq_true, if_false]
      exact ih (start + 1)
  · intro succeeds start fuel
    induction fuel generalizing start with
    | zero =>
      intro k h
      simp [env_construction_retry] at h
    | succ f ih =>
      intro k h
      by_cases hs : succeeds start = true
      · simp only [env_construction_retry, if_pos hs] at h
        obtain rfl := Option.some.inj h
        exact hs
      · simp only [env_construction_retry, if_neg hs] at h
        exact ih (start + 1) k h

/-- Witness for C6's second conjunct: an immediately succeeding construction
exits the loop at attempt 0. -/
theorem env_construction_retry_unbounded_witness :
    env_construction_retry (fun _ => true) 0 1 = some 0 ∧
      (fun _ : Nat => true) 0 = true :=
  ⟨rfl, env_construction_retry_unbounded.2 (fun _ => true) 0 1 0 rfl⟩

/-- C8 counterexample: with 2 environments and recorded actions whose rows
differ per episode, the original `run_episode_parallel` does not pass the
claimed per-episode rows to the vectorized step — its argument is the
single 1-D slice for index `episode`, not one row per environment. -/
theorem step_action_counterexample :
    ¬ ([step_action_orig (fun _ p _ _ => (p : ℚ)) 0 0 0] =
        claimed_step_rows (fun _ p _ _ => (p : ℚ)) 2 0 0 0) := by
  intro h
  have hlen := congrArg List.length h
  simp [claimed_step_rows] at hlen

/-- C8 (amended): the corrected `run_episode_parallel` passes exactly the
claimed rows for episodes `episode` through `episode + num_envs - 1`, while
the original passes only the single recorded-action row for index
`episode`; the two variants therefore carry the same row data exactly in
the case `num_envs = 1`. -/
theorem step_action_amended (actions : Nat → Nat → Nat → Nat → ℚ)
    (numEnvs generation episode counter : Nat) :
    step_action_correct actions numEnvs generation episode counter =
        claimed_step_rows actions numEnvs generation episode counter ∧
      [step_action_orig actions generation episode counter] =
        claimed_step_rows actions 1 generation episode counter := by
  constructor
  · rfl
  · simp [claimed_step_rows, step_action_orig, List.range_succ]

end MantaRay
